import Mathlib

/-!
Verification development for the memorygate-demo repository.

The repository holds two client-side scripts:

* `src/examples/baseline_rag.py` — class `BaselineRAG`, a naive in-memory
  RAG store: `add_memory` embeds content and appends to a memory list and
  an embeddings matrix, `query` ranks by dot product of pre-normalized
  embeddings, `flag_memory` sets `trust_weight` to `0.0` and `flagged` to
  `True` on the first matching memory (and only prints when no memory
  matches).
* `src/examples/with_memorygate.py` — class `MemoryGateClient`, an HTTP
  client; we model `feedback`, whose return value depends only on the
  HTTP outcome: `False` on any request exception (including the
  `HTTPError` that `raise_for_status` raises on a status code in
  400–599), otherwise whether the response body's `status` field is
  `"success"` or `"queued"`.

Floats are modelled as rationals (`ℚ`); the sentence-transformer embedder
is an external collaborator, modelled as an arbitrary function
`encode : String → List ℚ`.  `np.argsort` is modelled as an ascending
sort of indices by value; NumPy's default quicksort leaves the order of
equal values implementation-defined (it is documented as not stable), so
this model fixes one deterministic tie order (smaller index first).  No
theorem below depends on that tie order: the results proved about `query`
use only that the sort is an ascending permutation of the indices.
-/

namespace MemoryGateDemo

/-- A stored memory, as built by `BaselineRAG.add_memory`: the Python dict
with keys `memory_id`, `content`, `metadata`, `embedding`, `trust_weight`,
plus the `flagged` key that `flag_memory` may add later (the script reads
it with `.get('flagged', False)`, so a fresh memory behaves as
`flagged = false`). -/
structure Memory where
  memory_id : String
  content : String
  metadata : List (String × String)
  embedding : List ℚ
  trust_weight : ℚ
  flagged : Bool
deriving Repr, DecidableEq

/-- Default used for out-of-range list reads; reachable states never hit it. -/
def dummyMemory : Memory :=
  { memory_id := "", content := "", metadata := [], embedding := [],
    trust_weight := 1, flagged := false }

/-- State of a `BaselineRAG` instance: the `self.memories` list and the
`self.embeddings` matrix (`None` before the first insert, then one row per
insert, grown by `np.vstack`). -/
structure BaselineRAG where
  memories : List Memory
  embeddings : Option (List (List ℚ))
deriving Repr, DecidableEq

/-- `BaselineRAG.__init__`: empty memory list, embeddings matrix `None`. -/
def BaselineRAG.init : BaselineRAG := { memories := [], embeddings := none }

/-- `np.dot` of two vectors of equal length (the script's similarity
computation row-by-row). -/
def dot (xs ys : List ℚ) : ℚ :=
  (xs.zip ys).foldl (fun acc p => acc + p.1 * p.2) 0

/-- `BaselineRAG.add_memory`: embed the content, append the new memory dict
(with `trust_weight = 1.0` and no flag) to `self.memories`, and append the
embedding as a new row of `self.embeddings` (creating the matrix if it was
`None`). -/
def BaselineRAG.add_memory (encode : String → List ℚ) (st : BaselineRAG)
    (memory_id content : String) (metadata : List (String × String)) :
    BaselineRAG :=
  let embedding := encode content
  let memory : Memory :=
    { memory_id := memory_id, content := content, metadata := metadata,
      embedding := embedding, trust_weight := 1, flagged := false }
  { memories := st.memories ++ [memory],
    embeddings :=
      match st.embeddings with
      | none => some [embedding]
      | some rows => some (rows ++ [embedding]) }

/-- Ascending order on (index, similarity) pairs: by similarity, ties by
index.  This is the total order a stable ascending argsort realizes. -/
def leKey (a b : ℕ × ℚ) : Prop :=
  a.2 < b.2 ∨ (a.2 = b.2 ∧ a.1 ≤ b.1)

instance (a b : ℕ × ℚ) : Decidable (leKey a b) := by
  unfold leKey; infer_instance

/-- Strict descending order on (index, similarity) pairs: higher similarity
first, ties broken by the larger (most recent) index first. -/
def gtKey (a b : ℕ × ℚ) : Prop :=
  b.2 < a.2 ∨ (a.2 = b.2 ∧ b.1 < a.1)

instance (a b : ℕ × ℚ) : Decidable (gtKey a b) := by
  unfold gtKey; infer_instance

/-- Insert a pair into a `leKey`-sorted list of pairs. -/
def insKey (x : ℕ × ℚ) : List (ℕ × ℚ) → List (ℕ × ℚ)
  | [] => [x]
  | y :: ys => if leKey x y then x :: y :: ys else y :: insKey x ys

/-- Insertion sort of (index, similarity) pairs by `leKey`. -/
def sortKey : List (ℕ × ℚ) → List (ℕ × ℚ)
  | [] => []
  | x :: xs => insKey x (sortKey xs)

/-- Pair each list element with its position, starting at `i`. -/
def enumFrom (i : ℕ) : List ℚ → List (ℕ × ℚ)
  | [] => []
  | x :: xs => (i, x) :: enumFrom (i + 1) xs

/-- `np.argsort(similarities)`: the indices of `similarities` in ascending
order of value.  The default quicksort's order among equal values is
implementation-defined (NumPy documents it as not stable); this model
fixes one deterministic resolution (equal values keep index order).  No
theorem in this file relies on that tie order — only on the result being
an ascending permutation of the indices. -/
def argsort (similarities : List ℚ) : List ℕ :=
  (sortKey (enumFrom 0 similarities)).map Prod.fst

/-- One element of the list `BaselineRAG.query` returns: a copy of the
memory dict with the `embedding` key popped and `relevance` added. -/
structure QueryResult where
  memory_id : String
  content : String
  metadata : List (String × String)
  trust_weight : ℚ
  flagged : Bool
  relevance : ℚ
deriving Repr, DecidableEq

/-- Build the output dict for index `idx`: `self.memories[idx]` copied,
`relevance` set to `similarities[idx]`, `embedding` removed. -/
def resultAt (memories : List Memory) (similarities : List ℚ) (idx : ℕ) :
    QueryResult :=
  let memory := memories.getD idx dummyMemory
  { memory_id := memory.memory_id, content := memory.content,
    metadata := memory.metadata, trust_weight := memory.trust_weight,
    flagged := memory.flagged,
    relevance := similarities.getD idx 0 }

/-- `BaselineRAG.query`: empty list on an empty store; otherwise embed the
query, take the dot product of each matrix row with the query embedding,
rank indices by `np.argsort(similarities)[::-1][:n_results]`, and emit the
corresponding memories with their similarity as `relevance`. -/
def BaselineRAG.query (encode : String → List ℚ) (st : BaselineRAG)
    (query_text : String) (n_results : ℕ) : List QueryResult :=
  if st.memories.isEmpty then []
  else
    let query_embedding := encode query_text
    let rows := st.embeddings.getD []
    let similarities := rows.map (fun row => dot row query_embedding)
    let top_indices := ((argsort similarities).reverse).take n_results
    top_indices.map (resultAt st.memories similarities)

/-- The error the spec posits for feedback on an unknown id.  The script
defines no such exception and never raises one: `flag_memory` returns
normally on both branches. -/
inductive RagError where
  | notFoundError
deriving Repr, DecidableEq

/-- The loop body of `BaselineRAG.flag_memory`: walk `self.memories`, and
on the first memory whose `memory_id` matches set `trust_weight = 0.0` and
`flagged = True`, then stop; leave everything else untouched. -/
def flagFirst (memory_id : String) : List Memory → List Memory
  | [] => []
  | m :: ms =>
    if m.memory_id = memory_id then
      { m with trust_weight := 0, flagged := true } :: ms
    else
      m :: flagFirst memory_id ms

/-- `BaselineRAG.flag_memory`: mutate the first matching memory; when no
memory matches it only prints "Memory not found" and returns — so the
result is always `ok`, never `RagError.notFoundError`. -/
def BaselineRAG.flag_memory (memory_id : String) (st : BaselineRAG) :
    Except RagError BaselineRAG :=
  Except.ok { st with memories := flagFirst memory_id st.memories }

/-- The state after calling `flag_memory` (which always returns normally). -/
def flagStep (memory_id : String) (st : BaselineRAG) : BaselineRAG :=
  match st.flag_memory memory_id with
  | Except.ok st' => st'
  | Except.error _ => st

/-- One client-visible operation on a `BaselineRAG` instance. -/
inductive Op where
  | add (memory_id content : String) (metadata : List (String × String))
  | flag (memory_id : String)
  | ask (query_text : String) (n_results : ℕ)
deriving Repr, DecidableEq

/-- State transition of one operation (`query` reads but never writes). -/
def step (encode : String → List ℚ) (st : BaselineRAG) : Op → BaselineRAG
  | Op.add memory_id content metadata =>
      st.add_memory encode memory_id content metadata
  | Op.flag memory_id => flagStep memory_id st
  | Op.ask _ _ => st

/-- Run a sequence of operations from a starting state. -/
def run (encode : String → List ℚ) (ops : List Op) (st : BaselineRAG) :
    BaselineRAG :=
  ops.foldl (step encode) st

/-- The alignment invariant between the embeddings matrix and the memory
list: one row per memory, row `i` being memory `i`'s stored embedding
(`None` counts as the empty matrix). -/
def Aligned (st : BaselineRAG) : Prop :=
  st.embeddings.getD [] = st.memories.map (fun m => m.embedding)

instance (st : BaselineRAG) : Decidable (Aligned st) := by
  unfold Aligned; infer_instance

/-! ### MemoryGateClient.feedback -/

/-- The HTTP response `requests.post` hands back in
`MemoryGateClient.feedback`: its status code and the `status` field of the
parsed JSON body (`None` when the body has no such field, matching
`result.get("status")`). -/
structure FeedbackResponse where
  statusCode : ℕ
  status : Option String
deriving Repr, DecidableEq

/-- A `requests.exceptions.RequestException` (transport failure or the
`HTTPError` that `raise_for_status` raises). -/
inductive ReqError where
  | requestException
deriving Repr, DecidableEq

/-- `response.raise_for_status()`: raises `HTTPError` (a request
exception) exactly when `400 <= status_code < 600` (client or server
error); any other status code — including codes of 600 and above, which
the HTTP client layer admits — returns normally. -/
def raise_for_status (r : FeedbackResponse) : Except ReqError Unit :=
  if 400 ≤ r.statusCode ∧ r.statusCode < 600 then
    Except.error ReqError.requestException
  else Except.ok ()

/-- `MemoryGateClient.feedback`: POST the payload; on a request exception
(from the transport or from `raise_for_status`) return `False`; otherwise
return whether `result.get("status")` is `"success"` or `"queued"`.  The
network outcome is external input: `httpResult` is either the response or
the request exception the POST raised. -/
def feedback (memory_id action : String) (role : Option String)
    (httpResult : Except ReqError FeedbackResponse) : Bool :=
  let _payload :=
    [("memory_id", memory_id), ("action", action)] ++
      (match role with | some r => [("role", r)] | none => [])
  match httpResult with
  | Except.error _ => false
  | Except.ok response =>
    match raise_for_status response with
    | Except.error _ => false
    | Except.ok _ =>
      decide (response.status = some "success" ∨
        response.status = some "queued")

/-- A concrete embedder used by witnesses and counterexamples. -/
def demoEncode : String → List ℚ := fun _ => [1]

/-- Spec-side description of one query-result entry: the memory at the
given index with the given relevance attached. -/
def mkResult (memories : List Memory) (p : ℕ × ℚ) : QueryResult :=
  let m := memories.getD p.1 dummyMemory
  { memory_id := m.memory_id, content := m.content, metadata := m.metadata,
    trust_weight := m.trust_weight, flagged := m.flagged, relevance := p.2 }

/-- A one-memory demo store used by witnesses and counterexamples. -/
def demoStore : BaselineRAG :=
  BaselineRAG.init.add_memory demoEncode "m1" "hello" []

/-- A demo store holding two entries with the same id. -/
def demoStoreDup : BaselineRAG :=
  demoStore.add_memory demoEncode "m1" "hello again" []

/-- The single memory `demoStore` holds. -/
def demoMemory : Memory :=
  { memory_id := "m1", content := "hello", metadata := [], embedding := [1],
    trust_weight := 1, flagged := false }

/-- The demo store after its one memory has been flagged. -/
def demoFlaggedStore : BaselineRAG := flagStep "m1" demoStore

/-- Specification of what `BaselineRAG.query` returns on an aligned store:
some pair list (index, similarity) describes the result — it has length
`min n_results n`, distinct in-range indices, pairs each index with the
dot product of that memory's stored embedding and the query embedding, is
strictly descending by similarity with ties broken by the larger (more
recently inserted) index, every selected pair dominates every non-selected
index under that order, and the output is exactly those memories each
carrying its similarity as `relevance`.  The two tie-order conjuncts
describe this model's fixed resolution of `np.argsort`'s
implementation-defined tie order; the theorems drawn from this
specification use only the tie-independent parts (length, in-range
indices, and the pairing of each result with its own memory's
similarity). -/
def QuerySpec (encode : String → List ℚ) (st : BaselineRAG)
    (query_text : String) (n_results : ℕ) : Prop :=
  ∃ pairs : List (ℕ × ℚ),
    st.query encode query_text n_results = pairs.map (mkResult st.memories) ∧
    pairs.length = min n_results st.memories.length ∧
    (pairs.map Prod.fst).Nodup ∧
    (∀ p ∈ pairs, p.1 < st.memories.length ∧
      p.2 = dot ((st.memories.getD p.1 dummyMemory).embedding)
        (encode query_text)) ∧
    pairs.Pairwise gtKey ∧
    (∀ p ∈ pairs, ∀ j, j < st.memories.length → j ∉ pairs.map Prod.fst →
      gtKey p (j, dot ((st.memories.getD j dummyMemory).embedding)
        (encode query_text)))

/-! ## Lemmas about `flagFirst` -/

theorem flagFirst_length (memory_id : String) (ms : List Memory) :
    (flagFirst memory_id ms).length = ms.length := by
  induction ms with
  | nil => rfl
  | cons m ms ih =>
    by_cases h : m.memory_id = memory_id <;> simp [flagFirst, h, ih]

theorem flagFirst_map_embedding (memory_id : String) (ms : List Memory) :
    (flagFirst memory_id ms).map (fun m => m.embedding) =
      ms.map (fun m => m.embedding) := by
  induction ms with
  | nil => rfl
  | cons m ms ih =>
    by_cases h : m.memory_id = memory_id <;> simp [flagFirst, h, ih]

theorem flagFirst_getD (memory_id : String) (ms : List Memory) (i : ℕ) :
    (flagFirst memory_id ms).getD i dummyMemory = ms.getD i dummyMemory ∨
      (flagFirst memory_id ms).getD i dummyMemory =
        { ms.getD i dummyMemory with trust_weight := 0, flagged := true } := by
  induction ms generalizing i with
  | nil => exact Or.inl rfl
  | cons m ms ih =>
    by_cases h : m.memory_id = memory_id
    · cases i with
      | zero => exact Or.inr (by simp [flagFirst, h])
      | succ i => exact Or.inl (by simp [flagFirst, h])
    · cases i with
      | zero => exact Or.inl (by simp [flagFirst, h])
      | succ i => simpa [flagFirst, h] using ih i

theorem flagFirst_getD_memory_id (memory_id : String) (ms : List Memory)
    (i : ℕ) :
    ((flagFirst memory_id ms).getD i dummyMemory).memory_id =
      (ms.getD i dummyMemory).memory_id := by
  rcases flagFirst_getD memory_id ms i with h | h <;> rw [h]

theorem flagFirst_flagged_mono (memory_id : String) (ms : List Memory)
    (i : ℕ) (h : (ms.getD i dummyMemory).flagged = true) :
    ((flagFirst memory_id ms).getD i dummyMemory).flagged = true := by
  rcases flagFirst_getD memory_id ms i with h' | h' <;> rw [h']
  exact h

theorem flagFirst_no_match (memory_id : String) (ms : List Memory)
    (h : ∀ m ∈ ms, m.memory_id ≠ memory_id) :
    flagFirst memory_id ms = ms := by
  induction ms with
  | nil => rfl
  | cons m ms ih =>
    have hm : m.memory_id ≠ memory_id := h m (by simp)
    simp [flagFirst, hm, ih fun m' hm' => h m' (by simp [hm'])]

/-! ## Lemmas about `enumFrom` -/

theorem enumFrom_length (i : ℕ) (xs : List ℚ) :
    (enumFrom i xs).length = xs.length := by
  induction xs generalizing i with
  | nil => rfl
  | cons x xs ih => simp [enumFrom, ih]

theorem mem_enumFrom {p : ℕ × ℚ} {i : ℕ} {xs : List ℚ}
    (h : p ∈ enumFrom i xs) :
    i ≤ p.1 ∧ p.1 < i + xs.length ∧ p.2 = xs.getD (p.1 - i) 0 := by
  induction xs generalizing i with
  | nil => simp [enumFrom] at h
  | cons x xs ih =>
    rcases (by simpa [enumFrom] using h : p = (i, x) ∨ p ∈ enumFrom (i + 1) xs)
        with h' | h'
    · subst h'; simp
    · obtain ⟨h1, h2, h3⟩ := ih h'
      refine ⟨by omega, by simp; omega, ?_⟩
      have : p.1 - i = (p.1 - (i + 1)) + 1 := by omega
      simp [this, h3]

theorem enumFrom_mem (i : ℕ) (xs : List ℚ) (j : ℕ) (hj : j < xs.length) :
    (i + j, xs.getD j 0) ∈ enumFrom i xs := by
  induction xs generalizing i j with
  | nil => simp at hj
  | cons x xs ih =>
    cases j with
    | zero => simp [enumFrom]
    | succ j =>
      have h2 := ih (i + 1) j (Nat.lt_of_succ_lt_succ (by simpa using hj))
      have heq : i + (j + 1) = (i + 1) + j := by omega
      rw [heq, List.getD_cons_succ]
      simp only [enumFrom]
      exact List.mem_cons_of_mem _ h2

theorem enumFrom_fst_lower {p : ℕ × ℚ} {i : ℕ} {xs : List ℚ}
    (h : p ∈ enumFrom i xs) : i ≤ p.1 :=
  (mem_enumFrom h).1

theorem enumFrom_fst_nodup (i : ℕ) (xs : List ℚ) :
    ((enumFrom i xs).map Prod.fst).Nodup := by
  induction xs generalizing i with
  | nil => simp [enumFrom]
  | cons x xs ih =>
    simp only [enumFrom, List.map_cons, List.nodup_cons]
    refine ⟨?_, ih (i + 1)⟩
    intro hmem
    obtain ⟨p, hp, hfst⟩ := List.mem_map.mp hmem
    have := enumFrom_fst_lower hp
    omega

/-! ## Lemmas about `insKey`, `sortKey`, `argsort` -/

theorem leKey_total (a b : ℕ × ℚ) : leKey a b ∨ leKey b a := by
  unfold leKey
  rcases lt_trichotomy a.2 b.2 with h | h | h
  · exact Or.inl (Or.inl h)
  · rcases Nat.le_total a.1 b.1 with h' | h'
    · exact Or.inl (Or.inr ⟨h, h'⟩)
    · exact Or.inr (Or.inr ⟨h.symm, h'⟩)
  · exact Or.inr (Or.inl h)

theorem leKey_trans {a b c : ℕ × ℚ} (hab : leKey a b) (hbc : leKey b c) :
    leKey a c := by
  unfold leKey at *
  rcases hab with h | ⟨he, hi⟩ <;> rcases hbc with h' | ⟨he', hi'⟩
  · exact Or.inl (h.trans h')
  · exact Or.inl (he' ▸ h)
  · exact Or.inl (he ▸ h')
  · exact Or.inr ⟨he.trans he', hi.trans hi'⟩

theorem leKey_strict {a b : ℕ × ℚ} (hle : leKey a b) (hne : a.1 ≠ b.1) :
    gtKey b a := by
  unfold leKey at hle
  unfold gtKey
  rcases hle with h | ⟨he, hi⟩
  · exact Or.inl h
  · exact Or.inr ⟨he.symm, lt_of_le_of_ne hi hne⟩

theorem insKey_perm (x : ℕ × ℚ) (l : List (ℕ × ℚ)) :
    (insKey x l).Perm (x :: l) := by
  induction l with
  | nil => exact List.Perm.refl _
  | cons y ys ih =>
    by_cases h : leKey x y
    · simp [insKey, h]
    · simp only [insKey, if_neg h]
      exact (ih.cons y).trans (List.Perm.swap x y ys)

theorem sortKey_perm (l : List (ℕ × ℚ)) : (sortKey l).Perm l := by
  induction l with
  | nil => exact List.Perm.refl _
  | cons x xs ih => exact (insKey_perm x (sortKey xs)).trans (ih.cons x)

theorem insKey_pairwise {x : ℕ × ℚ} {l : List (ℕ × ℚ)}
    (hl : l.Pairwise leKey) : (insKey x l).Pairwise leKey := by
  induction l with
  | nil => simp [insKey]
  | cons y ys ih =>
    rcases List.pairwise_cons.mp hl with ⟨hy, hys⟩
    by_cases h : leKey x y
    · simp only [insKey, if_pos h]
      refine List.pairwise_cons.mpr ⟨?_, hl⟩
      intro z hz
      rcases List.mem_cons.mp hz with rfl | hz
      · exact h
      · exact leKey_trans h (hy z hz)
    · have hyx : leKey y x := (leKey_total x y).resolve_left h
      simp only [insKey, if_neg h]
      refine List.pairwise_cons.mpr ⟨?_, ih hys⟩
      intro z hz
      have hz' := (insKey_perm x ys).mem_iff.mp hz
      rcases List.mem_cons.mp hz' with rfl | hz'
      · exact hyx
      · exact hy z hz'

theorem sortKey_pairwise (l : List (ℕ × ℚ)) : (sortKey l).Pairwise leKey := by
  induction l with
  | nil => simp [sortKey]
  | cons x xs ih => exact insKey_pairwise ih

theorem sortKey_fst_nodup {l : List (ℕ × ℚ)}
    (h : (l.map Prod.fst).Nodup) : ((sortKey l).map Prod.fst).Nodup :=
  (((sortKey_perm l).map Prod.fst).nodup_iff).mpr h

/-- The sorted pair list, read in reverse, is strictly descending for
`gtKey` whenever the indices are distinct. -/
theorem sortKey_reverse_pairwise_gtKey {l : List (ℕ × ℚ)}
    (h : (l.map Prod.fst).Nodup) :
    ((sortKey l).reverse).Pairwise gtKey := by
  rw [List.pairwise_reverse]
  have hs := sortKey_pairwise l
  have hnd : ((sortKey l).map Prod.fst).Nodup := sortKey_fst_nodup h
  have hne : (sortKey l).Pairwise (fun a b => a.1 ≠ b.1) :=
    (List.pairwise_map.mp hnd)
  exact (hs.and hne).imp fun ⟨hle, hne⟩ => leKey_strict hle hne

theorem mem_sortKey_enumFrom {p : ℕ × ℚ} {xs : List ℚ}
    (h : p ∈ sortKey (enumFrom 0 xs)) :
    p.1 < xs.length ∧ p.2 = xs.getD p.1 0 := by
  have hmem := (sortKey_perm (enumFrom 0 xs)).mem_iff.mp h
  obtain ⟨h1, h2, h3⟩ := mem_enumFrom hmem
  exact ⟨by omega, by simpa using h3⟩

theorem sortKey_enumFrom_mem (xs : List ℚ) (j : ℕ) (hj : j < xs.length) :
    (j, xs.getD j 0) ∈ sortKey (enumFrom 0 xs) := by
  have := enumFrom_mem 0 xs j hj
  exact (sortKey_perm (enumFrom 0 xs)).mem_iff.mpr (by simpa using this)

theorem sortKey_enumFrom_length (xs : List ℚ) :
    (sortKey (enumFrom 0 xs)).length = xs.length := by
  rw [(sortKey_perm (enumFrom 0 xs)).length_eq, enumFrom_length]

theorem getD_map_dot (ms : List Memory) (q : List ℚ) (j : ℕ)
    (hj : j < ms.length) :
    (ms.map (fun m => dot m.embedding q)).getD j 0 =
      dot ((ms.getD j dummyMemory).embedding) q := by
  induction ms generalizing j with
  | nil => simp at hj
  | cons m ms ih =>
    cases j with
    | zero => rfl
    | succ j =>
      rw [List.map_cons, List.getD_cons_succ, List.getD_cons_succ]
      exact ih j (by simpa using hj)

theorem query_eq_of_not_empty (encode : String → List ℚ) (st : BaselineRAG)
    (query_text : String) (n_results : ℕ)
    (hemp : ¬ st.memories.isEmpty = true) :
    st.query encode query_text n_results =
      ((argsort ((st.embeddings.getD []).map
          (fun row => dot row (encode query_text)))).reverse.take n_results).map
        (resultAt st.memories ((st.embeddings.getD []).map
          (fun row => dot row (encode query_text)))) := by
  rw [BaselineRAG.query, if_neg hemp]

/-- Characterization of `BaselineRAG.query` on an aligned store: the
result is described by a pair list (index, similarity) that has length
`min n_results n`, carries distinct in-range indices, pairs each index
with the dot product of that memory's embedding and the query embedding,
is strictly descending for (similarity, then recency), and dominates every
non-selected memory under that order. -/
theorem query_char (encode : String → List ℚ) (st : BaselineRAG)
    (query_text : String) (n_results : ℕ) (hA : Aligned st) :
    QuerySpec encode st query_text n_results := by
  unfold QuerySpec
  by_cases hemp : st.memories.isEmpty
  · refine ⟨[], ?_, ?_, by simp, by simp, by simp, by simp⟩
    · simp [BaselineRAG.query, hemp]
    · rw [List.isEmpty_iff] at hemp
      simp [hemp]
  · set q := encode query_text with hq
    set sims : List ℚ :=
      st.memories.map (fun m => dot m.embedding q) with hsims
    have hrows : st.embeddings.getD [] = st.memories.map (fun m => m.embedding) := hA
    have hsimrows :
        (st.embeddings.getD []).map (fun row => dot row q) = sims := by
      rw [hrows, hsims, List.map_map]
      rfl
    have hlen : sims.length = st.memories.length := by
      rw [hsims, List.length_map]
    set S : List (ℕ × ℚ) := sortKey (enumFrom 0 sims) with hS
    set pairs : List (ℕ × ℚ) := (S.reverse).take n_results with hpairs
    have hmemS : ∀ p ∈ pairs, p ∈ S := by
      intro p hp
      exact (List.mem_reverse).mp ((List.take_sublist _ _).mem hp)
    have hmem_char : ∀ p ∈ pairs, p.1 < st.memories.length ∧
        p.2 = dot ((st.memories.getD p.1 dummyMemory).embedding) q := by
      intro p hp
      obtain ⟨h1, h2⟩ := mem_sortKey_enumFrom (hmemS p hp)
      rw [hlen] at h1
      refine ⟨h1, ?_⟩
      rw [h2, hsims, getD_map_dot st.memories q p.1 h1]
    refine ⟨pairs, ?_, ?_, ?_, hmem_char, ?_, ?_⟩
    · show st.query encode query_text n_results = _
      have hargs : argsort sims = S.map Prod.fst := rfl
      rw [query_eq_of_not_empty encode st query_text n_results hemp]
      rw [hsimrows, hargs, ← List.map_reverse, ← List.map_take, List.map_map]
      refine List.map_congr_left ?_
      intro p hp
      obtain ⟨h1, h2⟩ := mem_sortKey_enumFrom (hmemS p hp)
      show resultAt st.memories sims p.1 = mkResult st.memories p
      simp only [resultAt, mkResult]
      rw [← h2]
    · rw [hpairs, List.length_take, List.length_reverse, hS,
        sortKey_enumFrom_length, hlen]
    · have hnd : (S.map Prod.fst).Nodup :=
        sortKey_fst_nodup (enumFrom_fst_nodup 0 sims)
      have hndrev : ((S.reverse).map Prod.fst).Nodup := by
        rw [List.map_reverse]
        exact List.nodup_reverse.mpr hnd
      rw [hpairs, List.map_take]
      exact List.Nodup.sublist (List.take_sublist _ _) hndrev
    · have hrev : (S.reverse).Pairwise gtKey := by
        rw [hS]
        exact sortKey_reverse_pairwise_gtKey (enumFrom_fst_nodup 0 sims)
      exact List.Pairwise.sublist (List.take_sublist _ _) hrev
    · intro p hp j hj hjnot
      have hjsims : j < sims.length := by omega
      have hx : (j, sims.getD j 0) ∈ S := sortKey_enumFrom_mem sims j hjsims
      have hxrev : (j, sims.getD j 0) ∈ S.reverse := (List.mem_reverse).mpr hx
      have hsplit := List.take_append_drop n_results S.reverse
      have hxdrop : (j, sims.getD j 0) ∈ (S.reverse).drop n_results := by
        have hx2 : (j, sims.getD j 0) ∈
            (S.reverse).take n_results ++ (S.reverse).drop n_results := by
          rw [hsplit]; exact hxrev
        rcases List.mem_append.mp hx2 with h' | h'
        · exact absurd (List.mem_map.mpr ⟨_, h', rfl⟩) hjnot
        · exact h'
      have hrev : (S.reverse).Pairwise gtKey :=
        sortKey_reverse_pairwise_gtKey (enumFrom_fst_nodup 0 sims)
      have hpw : ((S.reverse).take n_results ++
          (S.reverse).drop n_results).Pairwise gtKey := by
        rwa [hsplit]
      have hgt := (List.pairwise_append.mp hpw).2.2 p hp _ hxdrop
      have heq : sims.getD j 0 =
          dot ((st.memories.getD j dummyMemory).embedding) q := by
        rw [hsims]
        exact getD_map_dot st.memories q j hj
      rwa [heq] at hgt

/-! ## Invariant-preservation lemmas for operation sequences -/

theorem mem_flagFirst {m : Memory} {memory_id : String} {ms : List Memory}
    (h : m ∈ flagFirst memory_id ms) :
    m ∈ ms ∨ ∃ m' ∈ ms, m = { m' with trust_weight := 0, flagged := true } := by
  induction ms with
  | nil => simp [flagFirst] at h
  | cons m' ms ih =>
    by_cases hid : m'.memory_id = memory_id
    · rcases List.mem_cons.mp (by simpa only [flagFirst, if_pos hid] using h)
          with rfl | hmem
      · exact Or.inr ⟨m', by simp, rfl⟩
      · exact Or.inl (by simp [hmem])
    · rcases List.mem_cons.mp (by simpa [flagFirst, hid] using h)
          with rfl | hmem
      · exact Or.inl (by simp)
      · rcases ih hmem with h' | ⟨m'', hm'', rfl⟩
        · exact Or.inl (by simp [h'])
        · exact Or.inr ⟨m'', by simp [hm''], rfl⟩

/-- The trust-weight bound invariant: one operation preserves it. -/
theorem step_trust_bounds (encode : String → List ℚ) (st : BaselineRAG)
    (op : Op)
    (h : ∀ m ∈ st.memories, 0 ≤ m.trust_weight ∧ m.trust_weight ≤ 1) :
    ∀ m ∈ (step encode st op).memories,
      0 ≤ m.trust_weight ∧ m.trust_weight ≤ 1 := by
  cases op with
  | add memory_id content metadata =>
    intro m hm
    rcases List.mem_append.mp hm with hm | hm
    · exact h m hm
    · rcases List.mem_singleton.mp hm with rfl
      norm_num
  | flag memory_id =>
    intro m hm
    rcases mem_flagFirst hm with hm | ⟨m', hm', rfl⟩
    · exact h m hm
    · refine ⟨le_refl 0, by norm_num⟩
  | ask query_text n_results => exact h

theorem run_trust_bounds (encode : String → List ℚ) (ops : List Op)
    (st : BaselineRAG)
    (h : ∀ m ∈ st.memories, 0 ≤ m.trust_weight ∧ m.trust_weight ≤ 1) :
    ∀ m ∈ (run encode ops st).memories,
      0 ≤ m.trust_weight ∧ m.trust_weight ≤ 1 := by
  induction ops generalizing st with
  | nil => exact h
  | cons op ops ih => exact ih (step encode st op) (step_trust_bounds encode st op h)

/-- The sticky-flag invariant: one operation preserves a set flag at any
position. -/
theorem step_flagged_mono (encode : String → List ℚ) (st : BaselineRAG)
    (op : Op) (i : ℕ)
    (h : (st.memories.getD i dummyMemory).flagged = true) :
    (((step encode st op).memories.getD i dummyMemory).flagged = true) := by
  cases op with
  | add memory_id content metadata =>
    by_cases hi : i < st.memories.length
    · show (((st.memories ++ _).getD i dummyMemory).flagged = true)
      rw [List.getD_append _ _ _ _ hi]
      exact h
    · rw [List.getD_eq_default _ _ (by omega)] at h
      simp [dummyMemory] at h
  | flag memory_id => exact flagFirst_flagged_mono memory_id st.memories i h
  | ask query_text n_results => exact h

theorem run_flagged_mono (encode : String → List ℚ) (ops : List Op)
    (st : BaselineRAG) (i : ℕ)
    (h : (st.memories.getD i dummyMemory).flagged = true) :
    (((run encode ops st).memories.getD i dummyMemory).flagged = true) := by
  induction ops generalizing st with
  | nil => exact h
  | cons op ops ih => exact ih (step encode st op) (step_flagged_mono encode st op i h)

/-- Alignment of the embeddings matrix: one operation preserves it. -/
theorem step_aligned (encode : String → List ℚ) (st : BaselineRAG) (op : Op)
    (h : Aligned st) : Aligned (step encode st op) := by
  cases op with
  | add memory_id content metadata =>
    unfold Aligned at h ⊢
    cases hemb : st.embeddings with
    | none =>
      have : st.memories = [] := by
        have := h
        rw [hemb] at this
        simpa using (List.map_eq_nil_iff.mp this.symm)
      simp [step, BaselineRAG.add_memory, hemb, this]
    | some rows =>
      have hrows : rows = st.memories.map (fun m => m.embedding) := by
        rw [hemb] at h
        simpa using h
      simp [step, BaselineRAG.add_memory, hemb, hrows]
  | flag memory_id =>
    unfold Aligned at h ⊢
    show st.embeddings.getD [] =
      (flagFirst memory_id st.memories).map (fun m => m.embedding)
    rw [flagFirst_map_embedding]
    exact h
  | ask query_text n_results => exact h

theorem run_aligned (encode : String → List ℚ) (ops : List Op)
    (st : BaselineRAG) (h : Aligned st) : Aligned (run encode ops st) := by
  induction ops generalizing st with
  | nil => exact h
  | cons op ops ih => exact ih (step encode st op) (step_aligned encode st op h)

theorem flagStep_memories (memory_id : String) (st : BaselineRAG) :
    (flagStep memory_id st).memories = flagFirst memory_id st.memories := rfl

theorem flagStep_embeddings (memory_id : String) (st : BaselineRAG) :
    (flagStep memory_id st).embeddings = st.embeddings := rfl

/-! ## Claim theorems -/

/-- C1: In `BaselineRAG`, flagging is inert with respect to retrieval: for
every store state, query text and `n_results`, the returned memory ids,
their order and their relevance scores are identical whether or not
`flag_memory` was called on any id beforehand. -/
theorem flag_inert_for_retrieval (encode : String → List ℚ)
    (st : BaselineRAG) (flag_id query_text : String) (n_results : ℕ) :
    ((flagStep flag_id st).query encode query_text n_results).map
        (fun r => (r.memory_id, r.relevance)) =
      (st.query encode query_text n_results).map
        (fun r => (r.memory_id, r.relevance)) := by
  by_cases hemp : st.memories.isEmpty
  · have h0 : st.memories = [] := List.isEmpty_iff.mp hemp
    have h1 : (flagStep flag_id st).memories = [] := by
      rw [flagStep_memories, h0]
      rfl
    rw [BaselineRAG.query, BaselineRAG.query, if_pos (by rw [List.isEmpty_iff]; exact h1),
      if_pos (by rw [List.isEmpty_iff]; exact h0)]
  · have hemp' : ¬ ((flagStep flag_id st).memories.isEmpty = true) := by
      intro hcon
      apply hemp
      rw [List.isEmpty_iff] at hcon ⊢
      have hlen := congrArg List.length hcon
      rw [flagStep_memories, flagFirst_length] at hlen
      exact List.length_eq_zero.mp (by simpa using hlen)
    rw [query_eq_of_not_empty encode (flagStep flag_id st) query_text n_results hemp',
      query_eq_of_not_empty encode st query_text n_results hemp,
      flagStep_embeddings, flagStep_memories]
    simp only [List.map_map]
    refine List.map_congr_left ?_
    intro i _
    simp only [Function.comp, resultAt]
    rw [flagFirst_getD_memory_id]

/-- C7: `MemoryGateClient.feedback` returns `True` exactly when the HTTP
request completes without a request exception (the transport succeeded
and the status code is outside 400–599, so `raise_for_status` does not
raise) and the response body's `status` field is `"success"` or
`"queued"`; on any request exception it returns `False`. -/
theorem feedback_true_iff_success_or_queued (memory_id action : String)
    (role : Option String) (httpResult : Except ReqError FeedbackResponse) :
    (feedback memory_id action role httpResult = true ↔
      ∃ r : FeedbackResponse, httpResult = Except.ok r ∧
        (r.statusCode < 400 ∨ 600 ≤ r.statusCode) ∧
        (r.status = some "success" ∨ r.status = some "queued")) ∧
    (∀ e : ReqError, feedback memory_id action role (Except.error e) = false) := by
  refine ⟨?_, fun e => rfl⟩
  cases httpResult with
  | error e =>
    constructor
    · intro h
      exact absurd h (by simp [feedback])
    · rintro ⟨r, hr, -, -⟩
      exact absurd hr (by simp)
  | ok r =>
    by_cases hcode : 400 ≤ r.statusCode ∧ r.statusCode < 600
    · constructor
      · intro h
        exact absurd h (by simp [feedback, raise_for_status, hcode])
      · rintro ⟨r', hr', hcode', -⟩
        cases (by simpa using hr' : r = r')
        omega
    · constructor
      · intro h
        refine ⟨r, rfl, by omega, ?_⟩
        simpa [feedback, raise_for_status, hcode] using h
      · rintro ⟨r', hr', -, hstat⟩
        cases (by simpa using hr' : r = r')
        simp [feedback, raise_for_status, hcode, hstat]

/-- C4: for every sequence of operations starting from a fresh
`BaselineRAG`, every stored memory's `trust_weight` lies in `[0, 1]`. -/
theorem trust_weight_in_unit_interval (encode : String → List ℚ)
    (ops : List Op) (m : Memory)
    (hm : m ∈ (run encode ops BaselineRAG.init).memories) :
    0 ≤ m.trust_weight ∧ m.trust_weight ≤ 1 :=
  run_trust_bounds encode ops BaselineRAG.init
    (by intro m' hm'; simp [BaselineRAG.init] at hm') m hm

/-- Witness for C4 after one `add_memory`. -/
theorem trust_weight_in_unit_interval_witness :
    demoMemory ∈ (run demoEncode [Op.add "m1" "hello" []]
        BaselineRAG.init).memories ∧
      (0 ≤ demoMemory.trust_weight ∧ demoMemory.trust_weight ≤ 1) :=
  ⟨by decide,
    trust_weight_in_unit_interval demoEncode [Op.add "m1" "hello" []]
      demoMemory (by decide)⟩

/-- C8: for every `n_results`, querying an empty store returns the empty
list (without error), a store of `n < n_results` memories yields exactly
`n` results, and the result count never exceeds `n_results`. -/
theorem query_result_count_bounds (encode : String → List ℚ)
    (st : BaselineRAG) (query_text : String) (n_results : ℕ)
    (hA : Aligned st) :
    (st.memories = [] → st.query encode query_text n_results = []) ∧
    (st.memories.length < n_results →
      (st.query encode query_text n_results).length = st.memories.length) ∧
    (st.query encode query_text n_results).length ≤ n_results := by
  obtain ⟨pairs, hres, hlen, -, -, -, -⟩ :=
    query_char encode st query_text n_results hA
  have hqlen : (st.query encode query_text n_results).length =
      min n_results st.memories.length := by
    rw [hres, List.length_map, hlen]
  refine ⟨?_, ?_, ?_⟩
  · intro h0
    rw [BaselineRAG.query, if_pos (by rw [List.isEmpty_iff]; exact h0)]
  · intro hlt
    rw [hqlen]
    omega
  · rw [hqlen]
    omega

/-- Witness for C8: the one-memory demo store with `n_results = 3`. -/
theorem query_result_count_bounds_witness :
    Aligned demoStore ∧
      ((demoStore.memories = [] →
          demoStore.query demoEncode "where" 3 = []) ∧
        (demoStore.memories.length < 3 →
          (demoStore.query demoEncode "where" 3).length =
            demoStore.memories.length) ∧
        (demoStore.query demoEncode "where" 3).length ≤ 3) :=
  ⟨by decide,
    query_result_count_bounds demoEncode demoStore "where" 3 (by decide)⟩

/-- C9: once a memory has been flagged its `flagged` field is true and
stays true under every subsequent operation sequence. -/
theorem flagged_is_sticky (encode : String → List ℚ) (ops : List Op)
    (st : BaselineRAG) (i : ℕ)
    (h : (st.memories.getD i dummyMemory).flagged = true) :
    ((run encode ops st).memories.getD i dummyMemory).flagged = true :=
  run_flagged_mono encode ops st i h

/-- Witness for C9: the flagged demo memory stays flagged after another
insert and another flag. -/
theorem flagged_is_sticky_witness :
    (demoFlaggedStore.memories.getD 0 dummyMemory).flagged = true ∧
      ((run demoEncode [Op.add "m2" "bye" [], Op.flag "m2"]
          demoFlaggedStore).memories.getD 0 dummyMemory).flagged = true :=
  ⟨by decide,
    flagged_is_sticky demoEncode [Op.add "m2" "bye" [], Op.flag "m2"]
      demoFlaggedStore 0 (by decide)⟩

/-- C10: every operation preserves the alignment of the embeddings matrix
with the memories list (one row per entry, row `i` being memory `i`'s
embedding), every state reachable from a fresh store is aligned, and on an
aligned store each query result is the memory at some index paired with
the similarity computed from that same memory's stored embedding. -/
theorem embeddings_memories_aligned (encode : String → List ℚ) :
    (∀ st op, Aligned st → Aligned (step encode st op)) ∧
    (∀ ops, Aligned (run encode ops BaselineRAG.init)) ∧
    (∀ st query_text n_results, Aligned st →
      ∀ r ∈ st.query encode query_text n_results,
        ∃ i, i < st.memories.length ∧
          r = mkResult st.memories
            (i, dot ((st.memories.getD i dummyMemory).embedding)
              (encode query_text))) := by
  refine ⟨step_aligned encode, ?_, ?_⟩
  · intro ops
    exact run_aligned encode ops BaselineRAG.init (by rfl)
  · intro st query_text n_results hA r hr
    obtain ⟨pairs, hres, -, -, hmem, -, -⟩ :=
      query_char encode st query_text n_results hA
    rw [hres] at hr
    obtain ⟨p, hp, rfl⟩ := List.mem_map.mp hr
    obtain ⟨hlt, hsim⟩ := hmem p hp
    exact ⟨p.1, hlt, by rw [← hsim]⟩

/-- Witness for C10: flagging the demo store preserves alignment. -/
theorem embeddings_memories_aligned_witness :
    Aligned demoStore ∧ Aligned (step demoEncode demoStore (Op.flag "m1")) :=
  ⟨by decide,
    (embeddings_memories_aligned demoEncode).1 demoStore (Op.flag "m1")
      (by decide)⟩

/-- Counterexample to C2: in `BaselineRAG.flag_memory` a single flag on a
memory with positive trust (here trust 1) sets `trust_weight` to exactly
`0.0` — not `max(floor, trust * d)` for any decay factor `d ∈ (0,1)`. -/
theorem flag_zeroes_trust_counterexample :
    0 < (demoStore.memories.getD 0 dummyMemory).trust_weight ∧
      ((flagStep "m1" demoStore).memories.getD 0 dummyMemory).trust_weight
        = 0 := by
  decide

theorem flagFirst_first_match (memory_id : String) (ms : List Memory)
    (i : ℕ) (hi : i < ms.length)
    (hmatch : (ms.getD i dummyMemory).memory_id = memory_id)
    (hfirst : ∀ j < i, (ms.getD j dummyMemory).memory_id ≠ memory_id) :
    (flagFirst memory_id ms).getD i dummyMemory =
      { ms.getD i dummyMemory with trust_weight := 0, flagged := true } ∧
    ∀ j, j ≠ i → (flagFirst memory_id ms).getD j dummyMemory =
      ms.getD j dummyMemory := by
  induction ms generalizing i with
  | nil => simp at hi
  | cons m ms ih =>
    by_cases hid : m.memory_id = memory_id
    · cases i with
      | zero =>
        refine ⟨by simp [flagFirst, hid], ?_⟩
        intro j hj
        cases j with
        | zero => exact absurd rfl hj
        | succ j => simp [flagFirst, hid]
      | succ i =>
        exact absurd hid (hfirst 0 (Nat.succ_pos i))
    · cases i with
      | zero => exact absurd hmatch hid
      | succ i =>
        have hih := ih i (by simpa using hi) (by simpa using hmatch)
          (fun j hj => by simpa using hfirst (j + 1) (by omega))
        refine ⟨by simpa [flagFirst, hid] using hih.1, ?_⟩
        intro j hj
        cases j with
        | zero => simp [flagFirst, hid]
        | succ j =>
          have := hih.2 j (by omega)
          simpa [flagFirst, hid] using this

/-- C2 amended: applying a flag sets the first matching memory's
`trust_weight` to exactly `0.0` (not a multiplicative decay with a
positive floor) and its `flagged` to true, leaving every other entry
unchanged; in particular a single flag on a memory with positive trust
sets `trust_weight` to exactly `0`. -/
theorem flag_sets_trust_to_zero (st : BaselineRAG) (memory_id : String)
    (i : ℕ) (hi : i < st.memories.length)
    (hmatch : (st.memories.getD i dummyMemory).memory_id = memory_id)
    (hfirst : ∀ j < i,
      (st.memories.getD j dummyMemory).memory_id ≠ memory_id) :
    (flagStep memory_id st).memories.getD i dummyMemory =
      { st.memories.getD i dummyMemory with
          trust_weight := 0, flagged := true } ∧
    ∀ j, j ≠ i → (flagStep memory_id st).memories.getD j dummyMemory =
      st.memories.getD j dummyMemory := by
  rw [flagStep_memories]
  exact flagFirst_first_match memory_id st.memories i hi hmatch hfirst

/-- Witness for the amended C2 at the one-memory demo store. -/
theorem flag_sets_trust_to_zero_witness :
    (0 < demoStore.memories.length ∧
      (demoStore.memories.getD 0 dummyMemory).memory_id = "m1") ∧
    ((flagStep "m1" demoStore).memories.getD 0 dummyMemory =
        { demoStore.memories.getD 0 dummyMemory with
            trust_weight := 0, flagged := true } ∧
      ∀ j, j ≠ 0 → (flagStep "m1" demoStore).memories.getD j dummyMemory =
        demoStore.memories.getD j dummyMemory) :=
  ⟨⟨by decide, by decide⟩,
    flag_sets_trust_to_zero demoStore "m1" 0 (by decide) (by decide)
      (fun j hj => absurd hj (by omega))⟩

/-- Counterexample to C5: re-ingesting an existing `memory_id` does not
replace in place — `add_memory` appends, so after adding id "m1" twice the
store holds two entries for that id, not one. -/
theorem reingest_duplicates_counterexample :
    demoStoreDup.memories.length = 2 ∧
      demoStoreDup.memories.countP (fun m => m.memory_id == "m1") = 2 := by
  decide

/-- C5 amended: ingesting a memory always appends a fresh entry (content,
metadata, embedding, `trust_weight = 1`, unflagged) at the end, leaving
every existing entry — including any with the same id, and its
`trust_weight` — unchanged; the count of entries for that id grows by
one, so re-ingesting an existing id leaves the store with one more entry
for it rather than exactly one. -/
theorem add_memory_appends_entry (encode : String → List ℚ)
    (st : BaselineRAG) (memory_id content : String)
    (metadata : List (String × String)) :
    (st.add_memory encode memory_id content metadata).memories.take
        st.memories.length = st.memories ∧
    (st.add_memory encode memory_id content metadata).memories.length =
      st.memories.length + 1 ∧
    (st.add_memory encode memory_id content metadata).memories.getD
        st.memories.length dummyMemory =
      { memory_id := memory_id, content := content, metadata := metadata,
        embedding := encode content, trust_weight := 1, flagged := false } ∧
    (st.add_memory encode memory_id content metadata).memories.countP
        (fun m => m.memory_id == memory_id) =
      st.memories.countP (fun m => m.memory_id == memory_id) + 1 := by
  refine ⟨List.take_left st.memories _, by simp [BaselineRAG.add_memory], ?_, ?_⟩
  · show (st.memories ++ [_]).getD st.memories.length dummyMemory = _
    rw [List.getD_append_right _ _ _ _ (le_refl _), Nat.sub_self]
    rfl
  · show (st.memories ++ [_]).countP _ = _
    rw [List.countP_append]
    simp

/-- Counterexample to C6: flagging a `memory_id` not present in the store
does not fail with `NotFoundError` — `flag_memory` returns normally (it
only prints a message) and the store is unchanged. -/
theorem flag_unknown_id_counterexample :
    BaselineRAG.flag_memory "missing" demoStore = Except.ok demoStore ∧
      BaselineRAG.flag_memory "missing" demoStore ≠
        Except.error RagError.notFoundError := by
  refine ⟨rfl, ?_⟩
  intro h
  rw [BaselineRAG.flag_memory] at h
  exact Except.noConfusion h

/-- C6 amended: submitting a flag for a `memory_id` not present in the
store raises no error and is a no-op: `flag_memory` returns the store with
every stored memory unchanged. -/
theorem flag_unknown_id_noop (memory_id : String) (st : BaselineRAG)
    (h : ∀ m ∈ st.memories, m.memory_id ≠ memory_id) :
    BaselineRAG.flag_memory memory_id st = Except.ok st := by
  rw [BaselineRAG.flag_memory, flagFirst_no_match memory_id st.memories h]

/-- Witness for the amended C6 at the one-memory demo store. -/
theorem flag_unknown_id_noop_witness :
    (∀ m ∈ demoStore.memories, m.memory_id ≠ "missing") ∧
      BaselineRAG.flag_memory "missing" demoStore = Except.ok demoStore :=
  ⟨by decide, flag_unknown_id_noop "missing" demoStore (by decide)⟩

end MemoryGateDemo
